import Mathlib

/-!
Shallow embedding of the Lioness Performance warm-up / working-set calculator
(`src/src/App.jsx`, with the percentage-ramp warm-up variant from an unnamed
sibling file).  JavaScript numbers are modelled by `ℚ` (exact decimal
arithmetic); `Math.round` is round-half-toward-positive-infinity, i.e.
`⌊x + 1/2⌋`; JavaScript strings are modelled by `List Char`.
-/

namespace WarmupCalc

/-- JS `Math.round`: round half toward positive infinity, `⌊x + 1/2⌋`. -/
def jsRound (q : ℚ) : ℤ := ⌊q + 1/2⌋

/-- `App.jsx` line 3:
`const roundTo = (val, step) => (isNaN(val) ? 0 : Math.round(val / step) * step);`
`ℚ` has no NaN, so the `isNaN` guard has no residue in the embedding. -/
def roundTo (val step : ℚ) : ℚ := (jsRound (val / step) : ℚ) * step

theorem jsRound_intCast (n : ℤ) : jsRound (n : ℚ) = n := by
  unfold jsRound
  rw [Int.floor_int_add]
  norm_num

theorem roundTo_mul_self (n : ℤ) (step : ℚ) (hstep : step ≠ 0) :
    roundTo ((n : ℚ) * step) step = (n : ℚ) * step := by
  unfold roundTo
  rw [mul_div_assoc, div_self hstep, mul_one, jsRound_intCast]

/-- C9: `roundTo` is idempotent for every `x` and every `step > 0`. -/
theorem roundTo_idempotent (x step : ℚ) (h : 0 < step) :
    roundTo (roundTo x step) step = roundTo x step :=
  roundTo_mul_self (jsRound (x / step)) step (ne_of_gt h)

/-- Witness for `roundTo_idempotent` at x = 3.1, step = 2.5. -/
theorem roundTo_idempotent_witness :
    (0 : ℚ) < 5/2 ∧ roundTo (roundTo (31/10) (5/2)) (5/2) = roundTo (31/10) (5/2) :=
  ⟨by norm_num, roundTo_idempotent (31/10) (5/2) (by norm_num)⟩

/-! ## Progression engine (`App.jsx` lines 83–95) -/

/-- The subjective difficulty rating (`felt` state, one of the four radio values). -/
inductive FeltTag where
  | easy | solid | hard | missed
deriving DecidableEq

/-- `progressionMode` state: `"kg"` or `"percent"`. -/
inductive ProgressionMode where
  | kg | percent
deriving DecidableEq

/-- An increment table (`kgInc` / `pctInc` state objects).  The JS objects always
carry all four keys, so `kgInc[felt] ?? 0` is a total lookup. -/
def IncrementTable := FeltTag → ℚ

/-- `App.jsx` lines 83–87 (`suggestionDelta` memo):
in `"kg"` mode, `kgInc[felt] ?? 0`; otherwise the average of `lastWeights`
(or 0 for an empty list) times the percentage over 100, rounded. -/
def suggestionDelta (mode : ProgressionMode) (kgInc pctInc : IncrementTable)
    (felt : FeltTag) (lastWeights : List ℚ) (rounding : ℚ) : ℚ :=
  match mode with
  | .kg => kgInc felt
  | .percent =>
    let avg : ℚ := if lastWeights.length = 0 then 0
                   else lastWeights.sum / (lastWeights.length : ℚ)
    roundTo (avg * pctInc felt / 100) rounding

/-- The parsed reps pattern (`parseSetsPattern` result, `App.jsx` lines 61–75). -/
structure SetsPattern where
  sets : Nat
  reps : List Nat
deriving DecidableEq

/-- `App.jsx` lines 89–95 (`suggestedWeights` memo):
`sets = quickParsed.sets || lastWeights.length` (JS `||`: 0 falls through);
`baseArr = sets ? (lastWeights.length === sets ? lastWeights
  : Array.from({length: sets}, (_, i) => lastWeights[i] ?? lastWeights[lastWeights.length-1] ?? 0))
  : lastWeights`;
result maps `w ↦ roundTo((w ?? 0) + suggestionDelta, rounding)` (entries of
`baseArr` are never `undefined`, so `w ?? 0 = w`). -/
def suggestedWeights (pat : SetsPattern) (lastWeights : List ℚ)
    (delta rounding : ℚ) : List ℚ :=
  let sets := if pat.sets = 0 then lastWeights.length else pat.sets
  let baseArr :=
    if sets = 0 then lastWeights
    else if lastWeights.length = sets then lastWeights
    else (List.range sets).map
      (fun i => (lastWeights.get? i).getD ((lastWeights.getLast?).getD 0))
  baseArr.map (fun w => roundTo (w + delta) rounding)

/-- Spec-side restatement of C1's description of `suggestedWeights`:
target count is the pattern's set count, falling back to the weight list's
length when the pattern is empty; the base array is the weight list verbatim
when its length equals the target, otherwise entry `i` is the weight list
entry at `i` if present, else the last entry, else 0; each output entry is
`roundTo (base[i] + delta) step`. -/
def suggestWorkingSetsSpec (pat : SetsPattern) (weights : List ℚ)
    (delta step : ℚ) : List ℚ :=
  let target := if pat.sets = 0 then weights.length else pat.sets
  let base :=
    if weights.length = target then weights
    else (List.range target).map
      (fun i => (weights.get? i).getD ((weights.getLast?).getD 0))
  base.map (fun w => roundTo (w + delta) step)

/-- C1: for every reps pattern, weight list, felt tag, increment tables,
progression mode, and rounding step > 0, `suggestedWeights` computes exactly
what the spec describes: target set count = pattern's count with fallback to
the weight-list length, base array = verbatim weight list on exact length
match and otherwise index-or-last-or-zero padding, and each output entry is
`roundTo (base[i] + delta) step` for the scalar suggestion delta. -/
theorem suggestedWeights_eq_spec (pat : SetsPattern) (weights : List ℚ)
    (felt : FeltTag) (kgInc pctInc : IncrementTable) (mode : ProgressionMode)
    (step : ℚ) (hstep : 0 < step) :
    suggestedWeights pat weights
        (suggestionDelta mode kgInc pctInc felt weights step) step
      = suggestWorkingSetsSpec pat weights
        (suggestionDelta mode kgInc pctInc felt weights step) step := by
  unfold suggestedWeights suggestWorkingSetsSpec
  by_cases hp : pat.sets = 0
  · by_cases hw : weights.length = 0
    · simp [hp, hw, List.length_eq_zero.mp hw]
    · simp [hp, hw]
  · simp [hp]

/-- Witness for `suggestedWeights_eq_spec`: pattern "3x6" with a 2-entry
weight list (padding case). -/
theorem suggestedWeights_eq_spec_witness :
    (0 : ℚ) < 5/2 ∧
    suggestedWeights ⟨3, [6, 6, 6]⟩ [60, 65]
        (suggestionDelta .kg (fun _ => 5/2) (fun _ => 5/2) .solid [60, 65] (5/2)) (5/2)
      = suggestWorkingSetsSpec ⟨3, [6, 6, 6]⟩ [60, 65]
        (suggestionDelta .kg (fun _ => 5/2) (fun _ => 5/2) .solid [60, 65] (5/2)) (5/2) :=
  ⟨by norm_num,
   suggestedWeights_eq_spec ⟨3, [6, 6, 6]⟩ [60, 65] .solid
     (fun _ => 5/2) (fun _ => 5/2) .kg (5/2) (by norm_num)⟩

/-- Spec-side arithmetic mean of a weight list (`ℚ` division, so the empty
list yields 0, matching the code's explicit guard). -/
def meanSpec (ws : List ℚ) : ℚ := ws.sum / (ws.length : ℚ)

/-- The source's default percentage increment table
(`{ easy: 5, solid: 2.5, hard: 0, missed: -2.5 }`, `App.jsx` line 55). -/
def defaultPctInc : IncrementTable
  | .easy => 5
  | .solid => 5/2
  | .hard => 0
  | .missed => -(5/2)

/-- C5: the scalar suggestion delta is the increment-table entry in absolute
(kg) mode, and `roundTo(mean(weights) * pct/100, step)` in percentage mode;
in particular for weights `[60, 62.5, 65]`, felt "solid" at 2.5 %, rounding
2.5, the delta is 2.5 and the suggested weights are `[62.5, 65, 67.5]`. -/
theorem suggestionDelta_spec :
    (∀ (kgInc pctInc : IncrementTable) (felt : FeltTag) (ws : List ℚ) (step : ℚ),
        suggestionDelta .kg kgInc pctInc felt ws step = kgInc felt) ∧
    (∀ (kgInc pctInc : IncrementTable) (felt : FeltTag) (ws : List ℚ) (step : ℚ),
        suggestionDelta .percent kgInc pctInc felt ws step
          = roundTo (meanSpec ws * pctInc felt / 100) step) ∧
    suggestionDelta .percent defaultPctInc defaultPctInc .solid [60, 125/2, 65] (5/2)
      = 5/2 ∧
    suggestedWeights ⟨3, [6, 6, 6]⟩ [60, 125/2, 65]
        (suggestionDelta .percent defaultPctInc defaultPctInc .solid [60, 125/2, 65] (5/2))
        (5/2)
      = [125/2, 65, 135/2] := by
  refine ⟨fun _ _ _ _ _ => rfl, fun kgInc pctInc felt ws step => ?_, ?_, ?_⟩
  · unfold suggestionDelta meanSpec
    by_cases hw : ws.length = 0
    · simp [hw, List.length_eq_zero.mp hw]
    · simp [hw]
  · show roundTo _ _ = _
    norm_num [roundTo, jsRound, defaultPctInc]
  · show List.map _ _ = _
    norm_num [roundTo, jsRound, defaultPctInc, suggestionDelta]

/-! ## Warm-up generators (`App.jsx` lines 104–129, and the percentage-ramp
variant `makeWarmupsFromTop` from the unnamed sibling source file) -/

/-- A warm-up rung: a (reps, weight) pair. -/
structure Rung where
  reps : Nat
  weight : ℚ
deriving DecidableEq

/-- The boolean comparison used by `seq.sort((a, b) => a.weight - b.weight)`:
JS `Array.prototype.sort` with that comparator is a stable ascending sort by
weight, modelled by `mergeSort` with `a.weight ≤ b.weight`. -/
def rungLE (a b : Rung) : Bool := a.weight ≤ b.weight

/-- `App.jsx` lines 104–129 (`generateGymWarmups`); `wuOffset` is the
component state the function closes over.  `if (!firstSet) return []` is the
`firstSet = 0` guard. -/
def generateGymWarmups (wuOffset firstSet roundingStep : ℚ) (isHeavy : Bool)
    (bar : ℚ) : List Rung :=
  if firstSet = 0 then []
  else
    let offset := max 5 (min 10 wuOffset)
    let lastWU := roundTo (max bar (firstSet - offset)) roundingStep
    let s1 := roundTo (max bar (firstSet * 0.4)) roundingStep
    let s2 := roundTo (max bar (firstSet * 0.6)) roundingStep
    let seq : List Rung := [⟨5, s1⟩, ⟨3, s2⟩, ⟨1, lastWU⟩]
    let seq :=
      if isHeavy then
        let s3 := roundTo (min lastWU (max bar (firstSet * 0.82))) roundingStep
        -- `seq.splice(2, 0, { reps: 1, weight: s3 })` inserts at index 2
        if s3 < lastWU then [⟨5, s1⟩, ⟨3, s2⟩, ⟨1, s3⟩, ⟨1, lastWU⟩] else seq
      else seq
    seq.mergeSort rungLE

/-- The fixed (reps, percent) ladder of the percentage-ramp variant. -/
def wuSeq : List (Nat × ℚ) := [(5, 40), (4, 50), (3, 60), (2, 70)]

/-- `makeWarmupsFromTop` from the unnamed sibling source file (lines 121–133);
`rounding` is the component state the function closes over. -/
def makeWarmupsFromTop (rounding top : ℚ) : List Rung :=
  if top = 0 then []
  else wuSeq.map (fun s => ⟨s.1, roundTo (top * s.2 / 100) rounding⟩)

/-- `roundTo` is monotone in the value for a positive step. -/
theorem roundTo_mono {x y : ℚ} (step : ℚ) (hxy : x ≤ y) (hstep : 0 < step) :
    roundTo x step ≤ roundTo y step := by
  unfold roundTo jsRound
  have hdiv : x / step ≤ y / step := (div_le_div_right hstep).mpr hxy
  have hfloor : ⌊x / step + 1/2⌋ ≤ ⌊y / step + 1/2⌋ :=
    Int.floor_le_floor (by linarith)
  exact mul_le_mul_of_nonneg_right (Int.cast_le.mpr hfloor) (le_of_lt hstep)

/-- C2 counterexample: under the percentage-ramp policy with top weight 2 and
rounding step 2.5, the generated ramp is non-empty and contains a rung whose
weight (2.5) exceeds the driving top working weight — refuting "every rung's
weight is at or below the driving first/top working weight". -/
theorem warmupRamp_rung_above_top :
    makeWarmupsFromTop (5/2) 2 ≠ [] ∧
      ¬ (∀ r ∈ makeWarmupsFromTop (5/2) 2, r.weight ≤ 2) := by
  have hlist : makeWarmupsFromTop (5/2) 2
      = [⟨5, 0⟩, ⟨4, 0⟩, ⟨3, 0⟩, ⟨2, 5/2⟩] := by
    norm_num [makeWarmupsFromTop, wuSeq, roundTo, jsRound]
  rw [hlist]
  refine ⟨by simp, fun h => ?_⟩
  have := h ⟨2, 5/2⟩ (by simp)
  norm_num at this

/-- C2 amended: every non-empty ramp is non-decreasing in weight — for the
offset-based generator unconditionally (it sorts ascending), and for the
percentage-ramp generator whenever the driving top weight is nonnegative and
the rounding step is positive; rungs may, however, exceed the driving
first/top working weight (see the counterexample). -/
theorem warmupRamp_nondecreasing :
    (∀ (wuOffset firstSet step bar : ℚ) (heavy : Bool),
        (generateGymWarmups wuOffset firstSet step heavy bar).Pairwise
          (fun a b => a.weight ≤ b.weight)) ∧
    (∀ top step : ℚ, 0 ≤ top → 0 < step →
        (makeWarmupsFromTop step top).Pairwise
          (fun a b => a.weight ≤ b.weight)) := by
  constructor
  · intro wuOffset firstSet step bar heavy
    unfold generateGymWarmups
    by_cases hf : firstSet = 0
    · simp [hf]
    · simp only [hf, if_false]
      have hsorted := @List.sorted_mergeSort Rung rungLE
        (fun a b c hab hbc => by
          simp only [rungLE, decide_eq_true_eq] at *; exact le_trans hab hbc)
        (fun a b => by simp only [rungLE, Bool.or_eq_true, decide_eq_true_eq]
                       exact le_total a.weight b.weight)
      refine List.Pairwise.imp ?_ (hsorted _)
      intro a b hab
      simpa [rungLE] using hab
  · intro top step htop hstep
    by_cases h0 : top = 0
    · simp [makeWarmupsFromTop, h0]
    · have mono : ∀ p q : ℚ, p ≤ q →
          roundTo (top * p / 100) step ≤ roundTo (top * q / 100) step := by
        intro p q hpq
        refine roundTo_mono step ?_ hstep
        have := mul_le_mul_of_nonneg_left hpq htop
        linarith
      simp only [makeWarmupsFromTop, h0, if_false, wuSeq, List.map_cons,
        List.map_nil]
      refine List.Pairwise.cons ?_ (List.Pairwise.cons ?_
        (List.Pairwise.cons ?_ (List.pairwise_singleton _ _))) <;>
        intro r hr <;>
        simp only [List.mem_cons, List.not_mem_nil, or_false] at hr <;>
        rcases hr with rfl | rfl | rfl <;> exact mono _ _ (by norm_num)


/-- Witness for `warmupRamp_nondecreasing` at the spec's worked example
(first set 65 / offset 7.5 / heavy, and top 67.5 with rounding 2.5). -/
theorem warmupRamp_nondecreasing_witness :
    (generateGymWarmups (15/2) 65 (5/2) true 20).Pairwise
      (fun a b => a.weight ≤ b.weight) ∧
    ((0 : ℚ) ≤ 135/2 ∧ (0 : ℚ) < 5/2 ∧
      (makeWarmupsFromTop (5/2) (135/2)).Pairwise
        (fun a b => a.weight ≤ b.weight)) :=
  ⟨warmupRamp_nondecreasing.1 (15/2) 65 (5/2) 20 true,
   by norm_num, by norm_num,
   warmupRamp_nondecreasing.2 (135/2) (5/2) (by norm_num) (by norm_num)⟩

/-- The offset clamp `Math.max(5, Math.min(10, wuOffset))`. -/
def clampOffset (x : ℚ) : ℚ := max 5 (min 10 x)

/-- Spec-side description of the offset-based generator's rungs (C3): a
5-rep rung at 40 %, a 3-rep rung at 60 %, a 1-rep last rung at
`firstSet - clampedOffset` (each floored at the bar and rounded), plus — when
the heavy flag is set — a 1-rep rung at `min(lastRung, max(bar, 82 %))` if
and only if it is strictly below the last rung. -/
def gymWarmupsSpec (wuOffset firstSet step : ℚ) (heavy : Bool)
    (bar : ℚ) : List Rung :=
  let offset := clampOffset wuOffset
  let lastWU := roundTo (max bar (firstSet - offset)) step
  let s1 := roundTo (max bar (firstSet * 0.4)) step
  let s2 := roundTo (max bar (firstSet * 0.6)) step
  let s3 := roundTo (min lastWU (max bar (firstSet * 0.82))) step
  [⟨5, s1⟩, ⟨3, s2⟩, ⟨1, lastWU⟩]
    ++ (if heavy = true ∧ s3 < lastWU then [⟨1, s3⟩] else [])

/-- C3: for every first working weight > 0, bar, step > 0, offset, and heavy
flag, the offset clamp lands in [5, 10] and `generateGymWarmups` returns
exactly (as a multiset — the code sorts before returning) the 5-rep 40 %
rung, the 3-rep 60 % rung, the 1-rep last rung at `firstSet - clampedOffset`,
and — iff heavy is set and it is strictly below the last rung — the extra
1-rep rung at `min(lastRung, max(bar, firstSet*0.82))`. -/
theorem generateGymWarmups_spec (wuOffset firstSet step bar : ℚ)
    (heavy : Bool) (hf : 0 < firstSet) (hs : 0 < step) :
    (5 ≤ clampOffset wuOffset ∧ clampOffset wuOffset ≤ 10) ∧
    (generateGymWarmups wuOffset firstSet step heavy bar).Perm
      (gymWarmupsSpec wuOffset firstSet step heavy bar) := by
  refine ⟨⟨le_max_left _ _, max_le (by norm_num) (min_le_left _ _)⟩, ?_⟩
  unfold generateGymWarmups gymWarmupsSpec clampOffset
  rw [if_neg (ne_of_gt hf)]
  dsimp only
  generalize roundTo (max bar (firstSet * 0.4)) step = q1
  generalize roundTo (max bar (firstSet * 0.6)) step = q2
  generalize hL : roundTo (max bar (firstSet - max 5 (min 10 wuOffset))) step = qL
  generalize roundTo (min qL (max bar (firstSet * 0.82))) step = q3
  cases heavy with
  | false =>
    simp only [Bool.false_eq_true, if_false, false_and, List.append_nil]
    exact List.mergeSort_perm _ _
  | true =>
    by_cases hlt : q3 < qL
    · simp only [if_pos hlt, true_and, if_pos hlt]
      refine (List.mergeSort_perm _ _).trans ?_
      exact List.Perm.cons _ (List.Perm.cons _ (List.Perm.swap _ _ _))
    · simp only [if_neg hlt, true_and, if_neg hlt, List.append_nil]
      exact List.mergeSort_perm _ _

/-- Witness for `generateGymWarmups_spec` at the spec's worked example
(offset 7.5, first set 65, rounding 2.5, heavy, bar 20). -/
theorem generateGymWarmups_spec_witness :
    (5 ≤ clampOffset (15/2) ∧ clampOffset (15/2) ≤ 10) ∧
    (generateGymWarmups (15/2) 65 (5/2) true 20).Perm
      (gymWarmupsSpec (15/2) 65 (5/2) true 20) :=
  generateGymWarmups_spec (15/2) 65 (5/2) 20 true (by norm_num) (by norm_num)

/-! ## Plate resolver (`App.jsx` lines 145–159) -/

/-- `+(x).toFixed(3)`: round to 3 decimal places (ties away from zero; only
nonnegative remainders occur here, so round-half-up `⌊1000x + 1/2⌋ / 1000`). -/
def round3 (q : ℚ) : ℚ := (jsRound (q * 1000) : ℚ) / 1000

/-- The fixed descending plate denominations
`const plates = [25, 20, 15, 10, 5, 2.5, 1.25]`. -/
def plates : List ℚ := [25, 20, 15, 10, 5, 5/2, 5/4]

/-- The `for (const p of plates)` loop of `plateBreakdown`: greedy floored
count per denomination, remainder carried through `toFixed(3)`; a `0` count
pushes nothing and leaves the remainder untouched. -/
def plateLoop : List ℚ → ℚ → List (Nat × ℚ)
  | [], _ => []
  | p :: ps, rem =>
    let count : ℤ := ⌊rem / p⌋
    if 0 < count then (count.toNat, p) :: plateLoop ps (round3 (rem - count * p))
    else plateLoop ps rem

/-- `App.jsx` lines 145–159 (`plateBreakdown`); entries are modelled as
(count, denomination) pairs rather than display strings. -/
def plateBreakdown (total bar : ℚ) : List (Nat × ℚ) :=
  let perSide := (total - bar) / 2
  if perSide ≤ 0 then [] else plateLoop plates perSide

/-- Sum over breakdown entries of count × denomination. -/
def plateSum : List (Nat × ℚ) → ℚ
  | [] => 0
  | e :: l => (e.1 : ℚ) * e.2 + plateSum l

/-- C4 counterexample: the claimed example output is wrong — per-side 40 is
decomposed greedily as 25 + 15 (the denomination list contains 15), not as
25 + 10 + 5. -/
theorem plateBreakdown_example_refuted :
    ¬ plateBreakdown 100 20 = [(1, 25), (1, 10), (1, 5)] := by
  have h : plateBreakdown 100 20 = [(1, 25), (1, 15)] := by
    norm_num [plateBreakdown, plateLoop, plates, round3, jsRound]
  rw [h]
  simp

/-- C4 amended: `plateBreakdown` returns an empty breakdown when the per-side
target `(total - bar)/2` is ≤ 0, and otherwise greedily takes, over the fixed
descending denominations, the floored maximal count of each denomination
fitting the remaining per-side weight, carrying the remainder rounded to 3
decimal places to the next denomination; in particular total = 100, bar = 20
yields exactly [1×25, 1×15]. -/
theorem plateBreakdown_spec :
    (∀ total bar : ℚ, (total - bar) / 2 ≤ 0 → plateBreakdown total bar = []) ∧
    (∀ total bar : ℚ, 0 < (total - bar) / 2 →
        plateBreakdown total bar = plateLoop plates ((total - bar) / 2)) ∧
    (∀ (p : ℚ) (ps : List ℚ) (rem : ℚ), 0 < ⌊rem / p⌋ →
        plateLoop (p :: ps) rem
          = (⌊rem / p⌋.toNat, p) :: plateLoop ps (round3 (rem - ⌊rem / p⌋ * p))) ∧
    (∀ (p : ℚ) (ps : List ℚ) (rem : ℚ), ¬ 0 < ⌊rem / p⌋ →
        plateLoop (p :: ps) rem = plateLoop ps rem) ∧
    plateBreakdown 100 20 = [(1, 25), (1, 15)] := by
  refine ⟨?_, ?_, ?_, ?_, ?_⟩
  · intro total bar h
    simp [plateBreakdown, h]
  · intro total bar h
    rw [plateBreakdown, if_neg (not_le.mpr h)]
  · intro p ps rem h
    rw [plateLoop]
    simp only [if_pos h]
  · intro p ps rem h
    rw [plateLoop]
    simp only [if_neg h]
  · norm_num [plateBreakdown, plateLoop, plates, round3, jsRound]

/-- Witness for `plateBreakdown_spec`: the empty-breakdown branch at
total = bar = 20, the positive branch at total 100 / bar 20, and both greedy
step shapes at concrete remainders. -/
theorem plateBreakdown_spec_witness :
    plateBreakdown 20 20 = [] ∧
    plateBreakdown 100 20 = plateLoop plates 40 ∧
    plateLoop [25, 20] 40 = ((⌊(40 : ℚ) / 25⌋.toNat, 25) :
        Nat × ℚ) :: plateLoop [20] (round3 (40 - ⌊(40 : ℚ) / 25⌋ * 25)) ∧
    plateLoop [20, 15] 15 = plateLoop [15] 15 := by
  refine ⟨plateBreakdown_spec.1 20 20 (by norm_num), ?_, ?_, ?_⟩
  · have h := plateBreakdown_spec.2.1 100 20 (by norm_num)
    rw [h]
    norm_num
  · exact plateBreakdown_spec.2.2.1 25 [20] 40 (by norm_num)
  · exact plateBreakdown_spec.2.2.2.1 20 [15] 15 (by norm_num)

/-- C10 counterexample: at total = 74.9995, bar = 20 (per-side 27.49975) the
remainder 2.49975 left after the 25 plate is rounded UP to 2.5 by
`toFixed(3)`, so a 2.5 plate is also taken and the per-side sum 27.5 exceeds
the per-side target. -/
theorem plateBreakdown_sum_exceeds_target :
    0 < ((149999 : ℚ)/2000 - 20) / 2 ∧
    ¬ plateSum (plateBreakdown (149999/2000) 20) ≤ ((149999 : ℚ)/2000 - 20) / 2 := by
  constructor
  · norm_num
  · have h : plateBreakdown (149999/2000) 20 = [(1, 25), (1, 5/2)] := by
      norm_num [plateBreakdown, plateLoop, plates, round3, jsRound]
    rw [h]
    norm_num [plateSum]

theorem round3_le (q : ℚ) : round3 q ≤ q + 1/2000 := by
  unfold round3 jsRound
  have h := Int.floor_le (q * 1000 + 1/2)
  rw [div_le_iff (by norm_num : (0:ℚ) < 1000)]
  linarith

theorem round3_nonneg {q : ℚ} (h : 0 ≤ q) : 0 ≤ round3 q := by
  unfold round3 jsRound
  have h2 : (0 : ℤ) ≤ ⌊q * 1000 + 1/2⌋ := Int.le_floor.mpr (by push_cast; linarith)
  positivity

theorem plateLoop_counts_pos (ps : List ℚ) (rem : ℚ) :
    ∀ e ∈ plateLoop ps rem, 1 ≤ e.1 := by
  induction ps generalizing rem with
  | nil => simp [plateLoop]
  | cons p ps ih =>
    intro e he
    rw [plateLoop] at he
    by_cases hc : 0 < ⌊rem / p⌋
    · rw [if_pos hc] at he
      rcases List.mem_cons.mp he with rfl | hmem
      · show 1 ≤ ⌊rem / p⌋.toNat
        omega
      · exact ih _ e hmem
    · rw [if_neg hc] at he
      exact ih _ e he

theorem plateLoop_denoms_sublist (ps : List ℚ) (rem : ℚ) :
    ((plateLoop ps rem).map Prod.snd).Sublist ps := by
  induction ps generalizing rem with
  | nil => simp [plateLoop]
  | cons p ps ih =>
    rw [plateLoop]
    by_cases hc : 0 < ⌊rem / p⌋
    · rw [if_pos hc]
      exact List.Sublist.cons₂ p (ih _)
    · rw [if_neg hc]
      exact List.Sublist.cons p (ih _)

theorem plateLoop_sum_le (ps : List ℚ) (rem : ℚ) (hrem : 0 ≤ rem)
    (hpos : ∀ p ∈ ps, 0 < p) :
    plateSum (plateLoop ps rem) ≤ rem + (ps.length : ℚ) * (1/2000) := by
  induction ps generalizing rem with
  | nil =>
    simp [plateLoop, plateSum]
    linarith
  | cons p ps ih =>
    have hp : 0 < p := hpos p (List.mem_cons_self p ps)
    have hpos' : ∀ q ∈ ps, 0 < q := fun q hq => hpos q (List.mem_cons_of_mem p hq)
    rw [plateLoop]
    by_cases hc : 0 < ⌊rem / p⌋
    · rw [if_pos hc]
      have hfloor : (⌊rem / p⌋ : ℚ) ≤ rem / p := Int.floor_le _
      have htake : (⌊rem / p⌋ : ℚ) * p ≤ rem := (le_div_iff hp).mp hfloor
      have hsub : 0 ≤ rem - ⌊rem / p⌋ * p := by linarith
      have hrem' : 0 ≤ round3 (rem - ⌊rem / p⌋ * p) := round3_nonneg hsub
      have hcarry : round3 (rem - ⌊rem / p⌋ * p) ≤ rem - ⌊rem / p⌋ * p + 1/2000 :=
        round3_le _
      have hih := ih _ hrem' hpos'
      have hcnt : ((⌊rem / p⌋.toNat : ℕ) : ℚ) = ((⌊rem / p⌋ : ℤ) : ℚ) := by
        exact_mod_cast Int.toNat_of_nonneg (le_of_lt hc)
      rw [plateSum]
      simp only [List.length_cons]
      push_cast
      rw [hcnt]
      push_cast at hih
      linarith
    · rw [if_neg hc]
      have hih := ih _ hrem hpos'
      simp only [List.length_cons]
      push_cast
      push_cast at hih
      linarith

/-- C10 amended: for every total and bar with per-side target
`(total - bar)/2 > 0`, every `plateBreakdown` entry has count at least 1 and
the denominations appear in strictly decreasing order; the sum of
count × denomination can exceed the per-side target (because of the
3-decimal rounding of carried remainders — see the counterexample), but
never by more than 1/2000 per denomination, i.e. it is at most the target
plus 7/2000. -/
theorem plateBreakdown_invariants (total bar : ℚ)
    (h : 0 < (total - bar) / 2) :
    (∀ e ∈ plateBreakdown total bar, 1 ≤ e.1) ∧
    ((plateBreakdown total bar).map Prod.snd).Pairwise (· > ·) ∧
    plateSum (plateBreakdown total bar) ≤ (total - bar) / 2 + 7/2000 := by
  have hb : plateBreakdown total bar = plateLoop plates ((total - bar) / 2) := by
    rw [plateBreakdown, if_neg (not_le.mpr h)]
  refine ⟨?_, ?_, ?_⟩
  · rw [hb]; exact plateLoop_counts_pos _ _
  · rw [hb]
    refine List.Pairwise.sublist (plateLoop_denoms_sublist _ _) ?_
    simp only [plates, List.pairwise_cons, List.mem_cons, List.not_mem_nil]
    norm_num
  · rw [hb]
    have := plateLoop_sum_le plates ((total - bar) / 2) (le_of_lt h)
      (by intro p hp
          simp only [plates, List.mem_cons, List.not_mem_nil, or_false] at hp
          rcases hp with rfl | rfl | rfl | rfl | rfl | rfl | rfl <;> norm_num)
    simp only [plates, List.length_cons, List.length_nil] at this
    norm_num at this
    simp only [plates]
    linarith

/-- Witness for `plateBreakdown_invariants` at total 100, bar 20. -/
theorem plateBreakdown_invariants_witness :
    (∀ e ∈ plateBreakdown 100 20, 1 ≤ e.1) ∧
    ((plateBreakdown 100 20).map Prod.snd).Pairwise (· > ·) ∧
    plateSum (plateBreakdown 100 20) ≤ ((100 : ℚ) - 20) / 2 + 7/2000 :=
  plateBreakdown_invariants 100 20 (by norm_num)

/-! ## String parsing (`App.jsx` lines 5–19 and 61–75).
JS strings are `List Char`; `parseInt`/`parseFloat` idealize to exact
`Nat`/`ℚ` values (no binary-float precision loss). -/

/-- The character class of the JS regex `\s` and of `String.prototype.trim`
(ECMAScript WhiteSpace ∪ LineTerminator). -/
def isJsWs (c : Char) : Bool :=
  c.toNat == 9 || c.toNat == 10 || c.toNat == 11 || c.toNat == 12 ||
  c.toNat == 13 || c.toNat == 32 || c.toNat == 160 || c.toNat == 5760 ||
  (decide (8192 ≤ c.toNat) && decide (c.toNat ≤ 8202)) ||
  c.toNat == 8232 || c.toNat == 8233 || c.toNat == 8239 || c.toNat == 8287 ||
  c.toNat == 12288 || c.toNat == 65279

/-- The JS regex class `\d`: the ASCII digits 0–9. -/
def isDigitCh (c : Char) : Bool := decide (48 ≤ c.toNat) && decide (c.toNat ≤ 57)

/-- `String.prototype.trim`: strip leading and trailing whitespace. -/
def trimChars (cs : List Char) : List Char :=
  ((cs.dropWhile isJsWs).reverse.dropWhile isJsWs).reverse

/-- `parseInt(tok, 10)` on an all-digit token. -/
def natOfDigits (cs : List Char) : Nat :=
  cs.foldl (fun a c => 10 * a + (c.toNat - 48)) 0

/-- `String.prototype.split` on a one-character class.  The source splits on
separator RUNS (`/[,-]+/`, `/[\n,]+/`); splitting at every separator differs
from run-splitting only by extra empty tokens, and every use site trims and
drops empty tokens immediately afterwards, so the surviving token lists
coincide. -/
def splitOnPred (p : Char → Bool) : List Char → List (List Char)
  | [] => [[]]
  | c :: cs =>
    if p c then [] :: splitOnPred p cs
    else
      match splitOnPred p cs with
      | [] => [[c]]
      | t :: ts => (c :: t) :: ts

/-- The regex `/^(\d+)\s*[xX]\s*(\d+)$/` as a deterministic matcher; the
classes `\d`, `\s`, `[xX]` are pairwise disjoint, so greedy maximal-munch
scanning is equivalent to the regex with backtracking. -/
def matchNxR (cs : List Char) : Option (Nat × Nat) :=
  let d1 := cs.takeWhile isDigitCh
  let r1 := cs.dropWhile isDigitCh
  if d1.isEmpty then none
  else
    match r1.dropWhile isJsWs with
    | [] => none
    | c :: r3 =>
      if c = 'x' ∨ c = 'X' then
        let r4 := r3.dropWhile isJsWs
        let d2 := r4.takeWhile isDigitCh
        let r5 := r4.dropWhile isDigitCh
        if d2.isEmpty = false ∧ r5.isEmpty = true then
          some (natOfDigits d1, natOfDigits d2)
        else none
      else none

/-- `App.jsx` lines 61–75 (`parseSetsPattern`; the spec calls it
`parseRepsPattern`): `Array.from({length: sets}, () => parseInt(m[2], 10))`
is `List.replicate`. -/
def parseSetsPattern (s : List Char) : SetsPattern :=
  let rx := trimChars s
  match matchNxR rx with
  | some (n, r) => ⟨n, List.replicate n r⟩
  | none =>
    let parts := ((splitOnPred (fun c => c == ',' || c == '-') rx).map
      trimChars).filter (fun t => !t.isEmpty)
    if parts.all (fun p => p.all isDigitCh) then
      ⟨parts.length, parts.map natOfDigits⟩
    else ⟨0, []⟩

theorem ws_false_of_digit {c : Char} (h : isDigitCh c = true) :
    isJsWs c = false := by
  simp only [isDigitCh, Bool.and_eq_true, decide_eq_true_eq] at h
  rw [← Bool.not_eq_true]
  intro hws
  simp only [isJsWs, Bool.or_eq_true, beq_iff_eq, Bool.and_eq_true,
    decide_eq_true_eq] at hws
  omega

theorem digit_false_of_ws {c : Char} (h : isJsWs c = true) :
    isDigitCh c = false := by
  rw [← Bool.not_eq_true]
  intro hd
  rw [ws_false_of_digit hd] at h
  exact Bool.false_ne_true h

theorem takeWhile_all_append {p : Char → Bool} (a b : List Char)
    (ha : ∀ c ∈ a, p c = true) (hb : ∀ c, b.head? = some c → p c = false) :
    (a ++ b).takeWhile p = a ∧ (a ++ b).dropWhile p = b := by
  induction a with
  | nil =>
    simp only [List.nil_append]
    cases b with
    | nil => simp
    | cons c cs =>
      have := hb c rfl
      simp [List.takeWhile_cons, List.dropWhile_cons, this]
  | cons x xs ih =>
    have hx := ha x (List.mem_cons_self x xs)
    have ih' := ih fun c hc => ha c (List.mem_cons_of_mem x hc)
    simp [List.takeWhile_cons, List.dropWhile_cons, hx, ih'.1, ih'.2]

theorem trimChars_eq_self {cs : List Char}
    (hh : ∀ c, cs.head? = some c → isJsWs c = false)
    (hl : ∀ c, cs.getLast? = some c → isJsWs c = false) :
    trimChars cs = cs := by
  unfold trimChars
  have h1 : cs.dropWhile isJsWs = cs := by
    cases cs with
    | nil => rfl
    | cons c cs' => simp [List.dropWhile_cons, hh c rfl]
  rw [h1]
  have h2 : cs.reverse.dropWhile isJsWs = cs.reverse := by
    cases hr : cs.reverse with
    | nil => rfl
    | cons c cs' =>
      have hlast : cs.getLast? = some c := by
        rw [← List.head?_reverse, hr]
        rfl
      simp [List.dropWhile_cons, hl c hlast]
  rw [h2, List.reverse_reverse]

/-- C7: `parseSetsPattern` is total (no exceptions) and its reps-list length
always equals its set count; any input matching neither the "N x R" shape
nor an all-integer dash/comma token list yields the empty pattern. -/
theorem parseSetsPattern_total :
    (∀ s : List Char,
        (parseSetsPattern s).reps.length = (parseSetsPattern s).sets) ∧
    (∀ s : List Char,
        matchNxR (trimChars s) = none →
        (((splitOnPred (fun c => c == ',' || c == '-') (trimChars s)).map
            trimChars).filter (fun t => !t.isEmpty)).all
          (fun p => p.all isDigitCh) = false →
        parseSetsPattern s = ⟨0, []⟩) := by
  constructor
  · intro s
    unfold parseSetsPattern
    dsimp only
    split
    · simp
    · split
      · simp
      · rfl
  · intro s h1 h2
    unfold parseSetsPattern
    dsimp only
    simp only [h1]
    rw [if_neg (by simp [h2])]

/-- Witness for `parseSetsPattern_total` at the unparseable input "abc". -/
theorem parseSetsPattern_total_witness :
    (parseSetsPattern ['a', 'b', 'c']).reps.length
        = (parseSetsPattern ['a', 'b', 'c']).sets ∧
    matchNxR (trimChars ['a', 'b', 'c']) = none ∧
    (((splitOnPred (fun c => c == ',' || c == '-')
        (trimChars ['a', 'b', 'c'])).map trimChars).filter
          (fun t => !t.isEmpty)).all (fun p => p.all isDigitCh) = false ∧
    parseSetsPattern ['a', 'b', 'c'] = ⟨0, []⟩ :=
  ⟨parseSetsPattern_total.1 ['a', 'b', 'c'], by decide, by decide,
   parseSetsPattern_total.2 ['a', 'b', 'c'] (by decide) (by decide)⟩

theorem isEmpty_false_of_ne_nil {l : List Char} (h : l ≠ []) :
    l.isEmpty = false := by
  cases l with
  | nil => exact absurd rfl h
  | cons c cs => rfl

theorem matchNxR_shape (d1 w1 w2 d2 : List Char) (xc : Char)
    (hd1 : d1 ≠ []) (hd2 : d2 ≠ [])
    (h1 : ∀ c ∈ d1, isDigitCh c = true) (h2 : ∀ c ∈ d2, isDigitCh c = true)
    (hw1 : ∀ c ∈ w1, isJsWs c = true) (hw2 : ∀ c ∈ w2, isJsWs c = true)
    (hx : xc = 'x' ∨ xc = 'X') :
    matchNxR (d1 ++ (w1 ++ xc :: (w2 ++ d2)))
      = some (natOfDigits d1, natOfDigits d2) := by
  have hxd : isDigitCh xc = false := by rcases hx with rfl | rfl <;> decide
  have hxw : isJsWs xc = false := by rcases hx with rfl | rfl <;> decide
  have hspan1 := takeWhile_all_append d1 (w1 ++ xc :: (w2 ++ d2)) h1
    (by intro c hc
        cases w1 with
        | nil => cases hc; exact hxd
        | cons a w1' =>
          rw [List.cons_append, List.head?_cons] at hc
          cases hc
          exact digit_false_of_ws (hw1 _ (List.mem_cons_self _ _)))
  have hdrop1 := takeWhile_all_append w1 (xc :: (w2 ++ d2)) hw1
    (by intro c hc; cases hc; exact hxw)
  have hdrop2 := takeWhile_all_append w2 d2 hw2
    (by intro c hc
        exact ws_false_of_digit (h2 c (List.mem_of_mem_head? hc)))
  have hspan2 : d2.takeWhile isDigitCh = d2 ∧ d2.dropWhile isDigitCh = [] := by
    have := takeWhile_all_append d2 [] h2 (by intro c hc; cases hc)
    rwa [List.append_nil] at this
  unfold matchNxR
  dsimp only
  rw [hspan1.1, hspan1.2, isEmpty_false_of_ne_nil hd1]
  simp only [Bool.false_eq_true, if_false, hdrop1.2]
  rw [if_pos hx, hdrop2.2, hspan2.1, hspan2.2]
  rw [if_pos ⟨isEmpty_false_of_ne_nil hd2, rfl⟩]

theorem parseSetsPattern_NxR (d1 w1 w2 d2 : List Char) (xc : Char)
    (hd1 : d1 ≠ []) (hd2 : d2 ≠ [])
    (h1 : ∀ c ∈ d1, isDigitCh c = true) (h2 : ∀ c ∈ d2, isDigitCh c = true)
    (hw1 : ∀ c ∈ w1, isJsWs c = true) (hw2 : ∀ c ∈ w2, isJsWs c = true)
    (hx : xc = 'x' ∨ xc = 'X') :
    parseSetsPattern (d1 ++ (w1 ++ xc :: (w2 ++ d2)))
      = ⟨natOfDigits d1, List.replicate (natOfDigits d1) (natOfDigits d2)⟩ := by
  have htrim : trimChars (d1 ++ (w1 ++ xc :: (w2 ++ d2)))
      = d1 ++ (w1 ++ xc :: (w2 ++ d2)) := by
    apply trimChars_eq_self
    · intro c hc
      obtain ⟨a, d1', rfl⟩ := List.exists_cons_of_ne_nil hd1
      rw [List.cons_append, List.head?_cons] at hc
      cases hc
      exact ws_false_of_digit (h1 _ (List.mem_cons_self _ _))
    · intro c hc
      rcases List.eq_nil_or_concat d2 with rfl | ⟨L, b, rfl⟩
      · exact absurd rfl hd2
      · rw [show d1 ++ (w1 ++ xc :: (w2 ++ L.concat b))
              = (d1 ++ (w1 ++ xc :: (w2 ++ L))) ++ [b] from by
                simp [List.concat_eq_append],
            List.getLast?_concat] at hc
        cases hc
        exact ws_false_of_digit (h2 _ (by simp [List.concat_eq_append]))
  unfold parseSetsPattern
  dsimp only
  rw [htrim, matchNxR_shape d1 w1 w2 d2 xc hd1 hd2 h1 h2 hw1 hw2 hx]

theorem splitOnPred_ne_nil (p : Char → Bool) (cs : List Char) :
    splitOnPred p cs ≠ [] := by
  cases cs with
  | nil => simp [splitOnPred]
  | cons c cs' =>
    rw [splitOnPred]
    by_cases hc : p c
    · simp [hc]
    · simp only [hc, Bool.false_eq_true, if_false]
      cases splitOnPred p cs' with
      | nil => simp
      | cons t ts => simp

theorem splitOnPred_no_sep (p : Char → Bool) (t : List Char)
    (h : ∀ c ∈ t, p c = false) : splitOnPred p t = [t] := by
  induction t with
  | nil => rfl
  | cons c t' ih =>
    rw [splitOnPred]
    have hc := h c (List.mem_cons_self c t')
    simp only [hc, Bool.false_eq_true, if_false]
    rw [ih fun a ha => h a (List.mem_cons_of_mem c ha)]

theorem splitOnPred_append_sep (p : Char → Bool) (t rest : List Char)
    (sep : Char) (ht : ∀ c ∈ t, p c = false) (hsep : p sep = true) :
    splitOnPred p (t ++ sep :: rest) = t :: splitOnPred p rest := by
  induction t with
  | nil =>
    rw [List.nil_append, splitOnPred]
    simp [hsep]
  | cons c t' ih =>
    rw [List.cons_append, splitOnPred]
    have hc := ht c (List.mem_cons_self c t')
    simp only [hc, Bool.false_eq_true, if_false]
    rw [ih fun a ha => ht a (List.mem_cons_of_mem c ha)]

theorem intercalate_cons_of_ne_nil (sep : Char) (t : List Char)
    (ts : List (List Char)) (h : ts ≠ []) :
    List.intercalate [sep] (t :: ts) = t ++ sep :: List.intercalate [sep] ts := by
  cases ts with
  | nil => exact absurd rfl h
  | cons t' ts' => simp [List.intercalate]

theorem intercalate_singleton (sep : Char) (t : List Char) :
    List.intercalate [sep] [t] = t := by
  simp [List.intercalate]

theorem sep_false_of_digit {c : Char} (h : isDigitCh c = true) :
    (c == ',' || c == '-') = false := by
  have h1 : c ≠ ',' := by rintro rfl; exact absurd h (by decide)
  have h2 : c ≠ '-' := by rintro rfl; exact absurd h (by decide)
  simp [h1, h2]

theorem trimChars_digit_token {t : List Char}
    (hd : ∀ c ∈ t, isDigitCh c = true) : trimChars t = t :=
  trimChars_eq_self
    (fun c hc => ws_false_of_digit (hd c (List.mem_of_mem_head? hc)))
    (fun c hc => ws_false_of_digit (hd c (List.mem_of_mem_getLast? hc)))

theorem intercalate_ne_nil (sep : Char) (t : List Char)
    (ts : List (List Char)) (ht : t ≠ []) :
    List.intercalate [sep] (t :: ts) ≠ [] := by
  cases ts with
  | nil => rw [intercalate_singleton]; exact ht
  | cons t' ts' =>
    rw [intercalate_cons_of_ne_nil sep t (t' :: ts') (by simp)]
    simp

theorem intercalate_getLast_digit (sep : Char) (toks : List (List Char)) :
    toks ≠ [] →
    (∀ t ∈ toks, t ≠ [] ∧ ∀ c ∈ t, isDigitCh c = true) →
    ∀ c, (List.intercalate [sep] toks).getLast? = some c →
      isDigitCh c = true := by
  induction toks with
  | nil => intro h; exact absurd rfl h
  | cons t ts ih =>
    intro _ hall c hc
    cases ts with
    | nil =>
      rw [intercalate_singleton] at hc
      exact (hall t (List.mem_cons_self _ _)).2 c (List.mem_of_mem_getLast? hc)
    | cons t' ts' =>
      rw [intercalate_cons_of_ne_nil sep t (t' :: ts') (by simp)] at hc
      have hX : List.intercalate [sep] (t' :: ts') ≠ [] :=
        intercalate_ne_nil sep t' ts' (hall t' (by simp)).1
      rw [show t ++ sep :: List.intercalate [sep] (t' :: ts')
            = (t ++ [sep]) ++ List.intercalate [sep] (t' :: ts') from by simp,
          List.getLast?_append_of_ne_nil _ hX] at hc
      exact ih (by simp) (fun u hu => hall u (List.mem_cons_of_mem t hu)) c hc

theorem matchNxR_all_digits (t : List Char)
    (h : ∀ c ∈ t, isDigitCh c = true) : matchNxR t = none := by
  have hspan := takeWhile_all_append t [] h (by intro c hc; cases hc)
  rw [List.append_nil] at hspan
  unfold matchNxR
  dsimp only
  rw [hspan.1, hspan.2]
  by_cases hE : t.isEmpty = true
  · simp [hE]
  · simp [hE]

theorem matchNxR_digits_sep (t rest : List Char) (sep : Char)
    (h : ∀ c ∈ t, isDigitCh c = true) (hsd : isDigitCh sep = false)
    (hsw : isJsWs sep = false) (hsx : sep ≠ 'x' ∧ sep ≠ 'X') :
    matchNxR (t ++ sep :: rest) = none := by
  have hspan := takeWhile_all_append t (sep :: rest) h
    (by intro c hc; rw [List.head?_cons] at hc; cases hc; exact hsd)
  unfold matchNxR
  dsimp only
  rw [hspan.1, hspan.2]
  by_cases hE : t.isEmpty = true
  · simp [hE]
  · simp only [hE, if_false]
    rw [List.dropWhile_cons]
    simp only [hsw, Bool.false_eq_true, if_false]
    rw [if_neg (by rintro (h' | h'); exacts [hsx.1 h', hsx.2 h'])]

theorem splitOnPred_intercalate (p : Char → Bool) (sep : Char)
    (hsep : p sep = true) (toks : List (List Char)) (hne : toks ≠ [])
    (htoks : ∀ t ∈ toks, ∀ c ∈ t, p c = false) :
    splitOnPred p (List.intercalate [sep] toks) = toks := by
  induction toks with
  | nil => exact absurd rfl hne
  | cons t ts ih =>
    cases ts with
    | nil =>
      rw [intercalate_singleton]
      exact splitOnPred_no_sep p t (htoks t (by simp))
    | cons t' ts' =>
      rw [intercalate_cons_of_ne_nil sep t _ (by simp),
          splitOnPred_append_sep p t _ sep (htoks t (by simp)) hsep,
          ih (by simp) fun u hu => htoks u (List.mem_cons_of_mem t hu)]

theorem map_trim_digit_tokens (toks : List (List Char))
    (h : ∀ t ∈ toks, ∀ c ∈ t, isDigitCh c = true) :
    toks.map trimChars = toks := by
  induction toks with
  | nil => rfl
  | cons t ts ih =>
    rw [List.map_cons, trimChars_digit_token (h t (by simp)),
        ih fun u hu => h u (List.mem_cons_of_mem t hu)]

theorem filter_nonempty_tokens (toks : List (List Char))
    (h : ∀ t ∈ toks, t ≠ []) :
    toks.filter (fun t => !t.isEmpty) = toks :=
  List.filter_eq_self.mpr fun a ha => by
    rw [isEmpty_false_of_ne_nil (h a ha)]
    rfl

theorem parseSetsPattern_digit_list (toks : List (List Char)) (sep : Char)
    (htoks : ∀ t ∈ toks, t ≠ [] ∧ ∀ c ∈ t, isDigitCh c = true)
    (hsep : sep = ',' ∨ sep = '-') :
    parseSetsPattern (List.intercalate [sep] toks)
      = ⟨toks.length, toks.map natOfDigits⟩ := by
  have hsepP : (sep == ',' || sep == '-') = true := by
    rcases hsep with rfl | rfl <;> decide
  have hsd : isDigitCh sep = false := by rcases hsep with rfl | rfl <;> decide
  have hsw : isJsWs sep = false := by rcases hsep with rfl | rfl <;> decide
  have hsx : sep ≠ 'x' ∧ sep ≠ 'X' := by
    rcases hsep with rfl | rfl <;> exact ⟨by decide, by decide⟩
  cases toks with
  | nil => rfl
  | cons t ts =>
    have htne := (htoks t (by simp)).1
    have htd := (htoks t (by simp)).2
    have htrim : trimChars (List.intercalate [sep] (t :: ts))
        = List.intercalate [sep] (t :: ts) := by
      apply trimChars_eq_self
      · intro c hc
        obtain ⟨a, t0, rfl⟩ := List.exists_cons_of_ne_nil htne
        cases ts with
        | nil =>
          rw [intercalate_singleton, List.head?_cons] at hc
          cases hc
          exact ws_false_of_digit (htd _ (by simp))
        | cons t' ts' =>
          rw [intercalate_cons_of_ne_nil sep _ _ (by simp), List.cons_append,
            List.head?_cons] at hc
          cases hc
          exact ws_false_of_digit (htd _ (by simp))
      · intro c hc
        exact ws_false_of_digit
          (intercalate_getLast_digit sep (t :: ts) (by simp) htoks c hc)
    have hmatch : matchNxR (List.intercalate [sep] (t :: ts)) = none := by
      cases ts with
      | nil =>
        rw [intercalate_singleton]
        exact matchNxR_all_digits t htd
      | cons t' ts' =>
        rw [intercalate_cons_of_ne_nil sep _ _ (by simp)]
        exact matchNxR_digits_sep t _ sep htd hsd hsw hsx
    unfold parseSetsPattern
    dsimp only
    rw [htrim, hmatch,
        splitOnPred_intercalate _ sep hsepP (t :: ts) (by simp)
          (fun u hu c hc => sep_false_of_digit ((htoks u hu).2 c hc)),
        map_trim_digit_tokens (t :: ts) (fun u hu => (htoks u hu).2),
        filter_nonempty_tokens (t :: ts) (fun u hu => (htoks u hu).1)]
    rw [if_pos (List.all_eq_true.mpr fun u hu =>
      List.all_eq_true.mpr fun c hc => (htoks u hu).2 c hc)]

/-- C6: for every text of the shape `<digits> <ws> x|X <ws> <digits>`,
`parseSetsPattern` yields exactly N sets each with R reps (N, R the numeric
values of the two digit runs); and for every comma- or dash-separated list
of bare digit tokens it yields one set per token carrying that token's
value. -/
theorem parseSetsPattern_spec :
    (∀ (d1 w1 w2 d2 : List Char) (xc : Char),
        d1 ≠ [] → d2 ≠ [] →
        (∀ c ∈ d1, isDigitCh c = true) → (∀ c ∈ d2, isDigitCh c = true) →
        (∀ c ∈ w1, isJsWs c = true) → (∀ c ∈ w2, isJsWs c = true) →
        (xc = 'x' ∨ xc = 'X') →
        parseSetsPattern (d1 ++ (w1 ++ xc :: (w2 ++ d2)))
          = ⟨natOfDigits d1,
             List.replicate (natOfDigits d1) (natOfDigits d2)⟩) ∧
    (∀ (toks : List (List Char)) (sep : Char),
        (∀ t ∈ toks, t ≠ [] ∧ ∀ c ∈ t, isDigitCh c = true) →
        (sep = ',' ∨ sep = '-') →
        parseSetsPattern (List.intercalate [sep] toks)
          = ⟨toks.length, toks.map natOfDigits⟩) :=
  ⟨fun d1 w1 w2 d2 xc hd1 hd2 h1 h2 hw1 hw2 hx =>
     parseSetsPattern_NxR d1 w1 w2 d2 xc hd1 hd2 h1 h2 hw1 hw2 hx,
   fun toks sep htoks hsep => parseSetsPattern_digit_list toks sep htoks hsep⟩

/-- Witness for `parseSetsPattern_spec`: the spec's examples "3x6" (as
digits-x-digits) and "6-6-6" (as a dash list of digit tokens). -/
theorem parseSetsPattern_spec_witness :
    parseSetsPattern (['3'] ++ ([] ++ 'x' :: ([] ++ ['6'])))
      = ⟨natOfDigits ['3'],
         List.replicate (natOfDigits ['3']) (natOfDigits ['6'])⟩ ∧
    parseSetsPattern (List.intercalate ['-'] [['6'], ['6'], ['6']])
      = ⟨([['6'], ['6'], ['6']] : List (List Char)).length,
         ([['6'], ['6'], ['6']] : List (List Char)).map natOfDigits⟩ :=
  ⟨parseSetsPattern_spec.1 ['3'] [] [] ['6'] 'x' (by decide) (by decide)
     (by decide) (by decide) (by simp) (by simp) (Or.inl rfl),
   parseSetsPattern_spec.2 [['6'], ['6'], ['6']] '-'
     (by intro t ht; simp only [List.mem_cons, List.not_mem_nil, or_false] at ht
         rcases ht with rfl | rfl | rfl <;> exact ⟨by decide, by decide⟩)
     (Or.inr rfl)⟩

/-! ## Manual scheme parser (`App.jsx` lines 5–33) -/

/-- A parsed manual-scheme token (`parseScheme` result objects). -/
structure SchemeToken where
  reps : Nat
  value : ℚ
  isPercent : Bool
  raw : List Char
deriving DecidableEq

/-- `parseFloat` on a matched `<digits>[.<digits>]` numeral. -/
def ratOfParts (intPart fracPart : List Char) : ℚ :=
  (natOfDigits intPart : ℚ)
    + (natOfDigits fracPart : ℚ) / (10 ^ fracPart.length : ℚ)

/-- The regex `/^(\d+)\s*[x@]\s*(\d+(?:\.\d+)?)\s*(%)?$/i` as a deterministic
matcher (`/i` makes `[x@]` accept `x`, `X`, `@`; a dot not followed by a
digit cannot be re-matched by `\s*(%)?$`, so it fails the whole token). -/
def matchScheme (tok : List Char) : Option SchemeToken :=
  let d1 := tok.takeWhile isDigitCh
  let r1 := tok.dropWhile isDigitCh
  if d1.isEmpty then none
  else
    match r1.dropWhile isJsWs with
    | [] => none
    | c :: r3 =>
      if c = 'x' ∨ c = 'X' ∨ c = '@' then
        let r4 := r3.dropWhile isJsWs
        let d2 := r4.takeWhile isDigitCh
        let r5 := r4.dropWhile isDigitCh
        if d2.isEmpty then none
        else
          let fr : Option (List Char × List Char) :=
            match r5 with
            | '.' :: r6 =>
              let f := r6.takeWhile isDigitCh
              let r7 := r6.dropWhile isDigitCh
              if f.isEmpty then none else some (f, r7)
            | _ => some ([], r5)
          match fr with
          | none => none
          | some (f, r7) =>
            match r7.dropWhile isJsWs with
            | '%' :: r9 =>
              if r9.isEmpty then
                some ⟨natOfDigits d1, ratOfParts d2 f, true, tok⟩
              else none
            | r8 =>
              if r8.isEmpty then
                some ⟨natOfDigits d1, ratOfParts d2 f, false, tok⟩
              else none
      else none

/-- `App.jsx` lines 5–19 (`parseScheme`): split on newlines/commas, trim,
drop empties, keep exactly the tokens the regex accepts. -/
def parseScheme (input : List Char) : List SchemeToken :=
  (((splitOnPred (fun c => c == '\n' || c == ',') input).map trimChars).filter
    (fun s => !s.isEmpty)).filterMap matchScheme

/-- A computed row (`calcRows`, `App.jsx` lines 21–33); the `display` string
is presentation-only and omitted. -/
structure Row where
  reps : Nat
  weight : ℚ
  isPercent : Bool
  raw : List Char
deriving DecidableEq

/-- `App.jsx` lines 21–33 (`calcRows`):
`weight = item.isPercent ? (base * item.value) / 100 : item.value`,
then `roundTo(weight, rounding)`. -/
def calcRows (scheme : List SchemeToken) (base rounding : ℚ) : List Row :=
  scheme.map fun item =>
    let weight := if item.isPercent then base * item.value / 100 else item.value
    let rounded := roundTo weight rounding
    ⟨item.reps, rounded, item.isPercent, item.raw⟩

/-- C8: `parseScheme` splits on commas/newlines and keeps exactly the tokens
its regex accepts, silently discarding the rest; the resolver maps an
accepted token to `base * value / 100` when flagged percent and to `value`
itself otherwise, then rounds; in particular "5x30, 4x40%" with base 80
(rounding 1) yields the absolute weight 30 and the percentage-derived 32,
and the malformed token "abc" is dropped rather than erroring. -/
theorem parseScheme_calcRows_spec :
    (∀ (scheme : List SchemeToken) (base rounding : ℚ),
        (calcRows scheme base rounding).map Row.weight
          = scheme.map fun it =>
              roundTo (if it.isPercent then base * it.value / 100 else it.value)
                rounding) ∧
    parseScheme ['5', 'x', '3', '0', ',', ' ', '4', 'x', '4', '0', '%']
      = [⟨5, 30, false, ['5', 'x', '3', '0']⟩,
         ⟨4, 40, true, ['4', 'x', '4', '0', '%']⟩] ∧
    (calcRows
        (parseScheme ['5', 'x', '3', '0', ',', ' ', '4', 'x', '4', '0', '%'])
        80 1).map Row.weight = [30, 32] ∧
    parseScheme
        ['5', 'x', '3', '0', ',', ' ', 'a', 'b', 'c', ',', ' ',
         '4', 'x', '4', '0', '%']
      = parseScheme ['5', 'x', '3', '0', ',', ' ', '4', 'x', '4', '0', '%'] := by
  have h30 : ratOfParts ['3', '0'] [] = 30 := by
    unfold ratOfParts
    rw [show natOfDigits ['3', '0'] = 30 from rfl,
        show natOfDigits [] = 0 from rfl]
    norm_num
  have h40 : ratOfParts ['4', '0'] [] = 40 := by
    unfold ratOfParts
    rw [show natOfDigits ['4', '0'] = 40 from rfl,
        show natOfDigits [] = 0 from rfl]
    norm_num
  have hparse : parseScheme ['5', 'x', '3', '0', ',', ' ', '4', 'x', '4', '0', '%']
      = [⟨5, ratOfParts ['3', '0'] [], false, ['5', 'x', '3', '0']⟩,
         ⟨4, ratOfParts ['4', '0'] [], true, ['4', 'x', '4', '0', '%']⟩] := rfl
  refine ⟨?_, ?_, ?_, ?_⟩
  · intro scheme base rounding
    simp only [calcRows, List.map_map]
    rfl
  · rw [hparse, h30, h40]
  · rw [hparse, h30, h40]
    norm_num [calcRows, roundTo, jsRound]
  · rfl
